import Mathlib

/-!
Shallow embedding of the Reversi rules engine (TyomoGit/reversi).

The Rust sources embedded here:
  * src/stone.rs    : Stone (Black/White) with opposite()
  * src/board.rs    : ArrayBasedBoard (Vec<Vec<Option<Stone>>>), get_at,
                      in_range, count, flip, is_game_over, put_stone, winner,
                      check_can_put, get_can_put_stones, get_flippable,
                      count_flippable, init_four_central_squares
  * src/game.rs     : SimpleReversiGame (board + whose-turn state), put_stone,
                      check_can_put, get_can_put_stones
  * src/computer.rs : SimpleComputer::decide (greedy flip-count strategy)

Conventions of the embedding:
  * Vec<Vec<Option<Stone>>> becomes List (List (Option Stone)).
  * Rust's `x as i32` / `x as usize` round trips in the directional scans are
    modelled with Int coordinates; a negative i32 cast to usize yields a value
    at least 2^64 - 2^31, which exceeds any possible Vec length, so the board
    accessors on such a cast always yield None/false.  We model that cast by
    returning none/false directly on negative coordinates.
  * The directional while-loops are modelled with fuel `size + 1`: a scan that
    only continues across cells holding a stone can visit at most `size` cells
    along a fixed ray of an `size`-sized board before leaving the grid (each
    step moves monotonically along at least one axis), so that fuel is never
    exhausted and the fuelled recursion agrees with the Rust loop.
  * Mutation is modelled by returning the new board; `Result<()>` becomes
    `Except ReversiError Unit`; the `unwrap()` inside
    ArrayBasedBoard::put_stone (a potential panic) is modelled by an `Option`
    layer: `none` is the panic.
-/

namespace Reversi

/-- src/stone.rs: `enum Stone { Black, White }`. -/
inductive Stone where
  | black
  | white
deriving DecidableEq, Repr

/-- src/stone.rs: `Stone::opposite`. -/
def Stone.opposite : Stone → Stone
  | .black => .white
  | .white => .black

/-- Point (x, y) of non-negative integers (src/point.rs is absent from the
sources but fully pinned down by the spec and by every use site). -/
structure Point where
  x : Nat
  y : Nat
deriving DecidableEq, Repr

/-- src/board.rs: `enum ReversiError` (same shape as game.rs
`ReversiGameError`). -/
inductive ReversiError where
  | StoneAlreadyPlaced
  | InvalidMove
  | IndexOutOfBound
  | NoStoneToFlip
  | NextPlayerCantPutStone
  | GameOverWithWinner (s : Stone)
  | GameOverWithDraw
deriving DecidableEq, Repr

/-- src/board.rs: `type Board = Vec<Vec<Option<Stone>>>`. -/
abbrev Board := List (List (Option Stone))

/-- src/board.rs: `size()` is `self.board.len()`. -/
def size (b : Board) : Nat := b.length

/-- src/board.rs: `get_at(x, y)` is
`self.board.get(y).and_then(|row| row.get(x).copied()).flatten()`. -/
def getAt (b : Board) (x y : Nat) : Option Stone :=
  (b[y]?.bind fun row => row[x]?).join

/-- src/board.rs: `in_range(x, y)` is `x < size && y < size`. -/
def inRange (b : Board) (x y : Nat) : Bool :=
  decide (x < size b) && decide (y < size b)

/-- `get_at(x as usize, y as usize)` where x y are i32: a negative value casts
to a huge usize, so the lookup yields None. -/
def getAtI (b : Board) (x y : Int) : Option Stone :=
  if 0 ≤ x ∧ 0 ≤ y then getAt b x.toNat y.toNat else none

/-- `in_range(x as usize, y as usize)` where x y are i32. -/
def inRangeI (b : Board) (x y : Int) : Bool :=
  if 0 ≤ x ∧ 0 ≤ y then inRange b x.toNat y.toNat else false

/-- src/board.rs: `count(player)` filters all cells equal to Some(player) and
counts them. -/
def count (b : Board) (player : Stone) : Nat :=
  b.flatten.countP (fun c => c == some player)

/-- src/board.rs: `is_game_over()` is
`count(Black) + count(White) == size * size`. -/
def isGameOver (b : Board) : Bool :=
  count b .black + count b .white == size b * size b

/-- `self.board[y][x] = v`.  All writes in the source are performed with the
coordinate in range of a square board, where `List.set` coincides with Rust's
indexed assignment. -/
def setCell (b : Board) (x y : Nat) (v : Option Stone) : Board :=
  b.set y ((b[y]?.getD []).set x v)

/-- src/board.rs: `flip(x, y)`. -/
def flip (b : Board) (x y : Nat) : Except ReversiError Board :=
  if ¬ inRange b x y then .error .IndexOutOfBound
  else
    match getAt b x y with
    | none => .error .NoStoneToFlip
    | some player => .ok (setCell b x y (some player.opposite))

/-- src/board.rs: `const DIRECTIONS: [(i32, i32); 8]` (dx, dy). -/
def DIRECTIONS : List (Int × Int) :=
  [(-1, -1), (-1, 0), (-1, 1), (0, -1), (0, 1), (1, -1), (1, 0), (1, 1)]

/-- Fuel for the directional while-loops; see the header comment. -/
def fuel (b : Board) : Nat := size b + 1

/-- The `while get_at == Some(opposite) { push; step }` loop common to
check_can_put / get_flippable / game.rs put_stone.  Returns the pushed stack
(Points built through the usize cast) and the coordinate at which the loop
stopped. -/
def scanLoop (b : Board) (opp : Stone) (d : Int × Int) :
    Nat → Int → Int → List Point × (Int × Int)
  | 0, sx, sy => ([], (sx, sy))
  | f + 1, sx, sy =>
    if getAtI b sx sy = some opp then
      let r := scanLoop b opp d f (sx + d.1) (sy + d.2)
      (⟨sx.toNat, sy.toNat⟩ :: r.1, r.2)
    else ([], (sx, sy))

/-- src/board.rs: `check_can_put(x, y, player)`. -/
def checkCanPut (b : Board) (x y : Nat) (player : Stone) : Bool :=
  if ¬ inRange b x y then false
  else if (getAt b x y).isSome then false
  else
    DIRECTIONS.any fun d =>
      let sx : Int := (x : Int) + d.1
      let sy : Int := (y : Int) + d.2
      if ¬ inRangeI b sx sy then false
      else
        let r := scanLoop b player.opposite d (fuel b) sx sy
        decide (getAtI b r.2.1 r.2.2 = some player) && !r.1.isEmpty

/-- src/board.rs: `get_can_put_stones(player)`: row-major scan (y outer,
x inner) collecting every coordinate accepted by check_can_put. -/
def getCanPutStones (b : Board) (player : Stone) : List Point :=
  (List.range (size b)).flatMap fun y =>
    (List.range (size b)).filterMap fun x =>
      if checkCanPut b x y player then some ⟨x, y⟩ else none

/-- One direction of src/board.rs `get_flippable`: the sandwiched run in
direction d, or [] when the direction does not qualify. -/
def dirFlippable (b : Board) (player : Stone) (x y : Nat) (d : Int × Int) :
    List Point :=
  let sx : Int := (x : Int) + d.1
  let sy : Int := (y : Int) + d.2
  if ¬ inRangeI b sx sy then []
  else
    let r := scanLoop b player.opposite d (fuel b) sx sy
    if getAtI b r.2.1 r.2.2 = some player then r.1 else []

/-- src/board.rs: `get_flippable(board, x, y, player)`: runs of all 8
directions, concatenated in DIRECTIONS order. -/
def getFlippable (b : Board) (x y : Nat) (player : Stone) : List Point :=
  (DIRECTIONS.map (dirFlippable b player x y)).flatten

/-- src/board.rs: `count_flippable(x, y)`: 0 when the cell is empty (or out of
range), otherwise the flippable count for the occupant's color. -/
def countFlippable (b : Board) (x y : Nat) : Nat :=
  match getAt b x y with
  | none => 0
  | some color => (getFlippable b x y color).length

/-- src/board.rs: `winner()`: pure stone-count comparison (always an Err). -/
def winner (b : Board) : Except ReversiError Unit :=
  let black := count b .black
  let white := count b .white
  if black > white then .error (.GameOverWithWinner .black)
  else if black < white then .error (.GameOverWithWinner .white)
  else .error .GameOverWithDraw

/-- The `.for_each(|p| self.flip(p.x, p.y).unwrap())` loop of
ArrayBasedBoard::put_stone; `none` models the unwrap panic. -/
def flipAllGo : Board → List Point → Option Board
  | b, [] => some b
  | b, p :: ps =>
    match flip b p.x p.y with
    | .ok b2 => flipAllGo b2 ps
    | .error _ => none

/-- Place the stone then perform all flips: the mutation performed by a
successful ArrayBasedBoard::put_stone before its outcome analysis. -/
def moveBoard (b : Board) (x y : Nat) (player : Stone) : Option Board :=
  let b1 := setCell b x y (some player)
  flipAllGo b1 (getFlippable b1 x y player)

/-- The tail of ArrayBasedBoard::put_stone after the game-over check: forced
pass / double pass / opponent-eliminated analysis. -/
def putStoneRest (b2 : Board) (player : Stone) :
    Except ReversiError Unit × Board :=
  if (getCanPutStones b2 player.opposite).isEmpty then
    if (getCanPutStones b2 player).isEmpty then (winner b2, b2)
    else (.error .NextPlayerCantPutStone, b2)
  else if count b2 player.opposite == 0 then
    (.error (.GameOverWithWinner player), b2)
  else (.ok (), b2)

/-- src/board.rs: `ArrayBasedBoard::put_stone(x, y, player)`.  Returns the
Rust result together with the board left behind; `none` is the unwrap panic
inside the flip loop. -/
def putStone (b : Board) (x y : Nat) (player : Stone) :
    Option (Except ReversiError Unit × Board) :=
  if ¬ checkCanPut b x y player then some (.error .InvalidMove, b)
  else if size b ≤ x ∨ size b ≤ y then some (.error .IndexOutOfBound, b)
  else if (getAt b x y).isSome then some (.error .StoneAlreadyPlaced, b)
  else
    match moveBoard b x y player with
    | none => none
    | some b2 =>
      if isGameOver b2 then
        -- `self.winner()?;` — winner always errs, but we keep the Ok branch
        -- of the `?` operator for faithfulness.
        match winner b2 with
        | .error e => some (.error e, b2)
        | .ok _ => some (putStoneRest b2 player)
      else some (putStoneRest b2 player)

/-- Square board well-formedness: every row has the board's length.  All
boards built by the constructors are square, and every mutation preserves
squareness. -/
def isSquare (b : Board) : Bool :=
  b.all fun row => row.length == b.length

/-- The list of row lengths (the board's shape). -/
def rowLens (b : Board) : List Nat := b.map List.length

/-- Total number of stones on the board, both colors. -/
def stonesTotal (b : Board) : Nat := count b .black + count b .white

/-- Number of empty cells. -/
def emptyCells (b : Board) : Nat :=
  b.flatten.countP (fun c => c == none)

/-- `vec![vec![None; size]; size]` (ArrayBasedBoard::with_size). -/
def emptyBoard (n : Nat) : Board :=
  List.replicate n (List.replicate n none)

/-- src/board.rs: `init_four_central_squares`. -/
def initFourCentralSquares (b : Board) : Board :=
  let half := size b / 2
  setCell
    (setCell
      (setCell
        (setCell b (half - 1) (half - 1) (some .white))
        half (half - 1) (some .black))
      (half - 1) half (some .black))
    half half (some .white)

/-- src/game.rs: `SimpleReversiGame` — the board plus the stored turn.
game.rs stores the turn inside the boxed board via `turn()`/`set_turn()`
(trait methods whose implementation is absent from src/); the spec (§2, §4.4)
pins them down as plain whose-turn state alongside the grid, which is how we
model them (PlayerKind of game.rs coincides with Stone). -/
structure SimpleReversiGame where
  board : Board
  turn : Stone
deriving DecidableEq, Repr

/-- Modelled from the spec: `place_stone` (called by game.rs put_stone, its
implementation absent from src/).  Spec §4.3 steps 1–2: the direct placement
check fails with IndexOutOfBound if out of range, StoneAlreadyPlaced if
occupied, and otherwise places the player's stone at (x, y). -/
def placeStone (b : Board) (x y : Nat) (player : Stone) :
    Except ReversiError Board :=
  if size b ≤ x ∨ size b ≤ y then .error .IndexOutOfBound
  else if (getAt b x y).isSome then .error .StoneAlreadyPlaced
  else .ok (setCell b x y (some player))

/-- The `for p in stack { self.board.flip(p.x, p.y)?; }` loop of game.rs
put_stone: flips applied in order; on a flip error the loop stops and the
error is reported with the board mutated so far. -/
def flipRun : Board → List Point → Board × Option ReversiError
  | b, [] => (b, none)
  | b, p :: ps =>
    match flip b p.x p.y with
    | .ok b2 => flipRun b2 ps
    | .error e => (b, some e)

/-- The `for d in DIRECTIONS { scan; flip stack }` loop of game.rs put_stone
(lines 54–77): per direction, scan the sandwiched run against the current
board, and flip it when the run ends on the mover's stone. -/
def gameFlipDirs (turn : Stone) (x y : Nat) :
    Board → List (Int × Int) → Board × Option ReversiError
  | b, [] => (b, none)
  | b, d :: ds =>
    let sx : Int := (x : Int) + d.1
    let sy : Int := (y : Int) + d.2
    if ¬ inRangeI b sx sy then gameFlipDirs turn x y b ds
    else
      let r := scanLoop b turn.opposite d (fuel b) sx sy
      if getAtI b r.2.1 r.2.2 ≠ some turn then gameFlipDirs turn x y b ds
      else
        match flipRun b r.1 with
        | (b2, none) => gameFlipDirs turn x y b2 ds
        | (b2, some e) => (b2, some e)

/-- Placement plus the whole flip phase of game.rs put_stone. -/
def gameFlipPhase (b : Board) (turn : Stone) (x y : Nat) :
    Board × Option ReversiError :=
  gameFlipDirs turn x y b DIRECTIONS

/-- The board after game.rs put_stone has placed the stone and run its flip
loops (the flip loops never fail on a square board; see flipPhase lemmas). -/
def gameMoveBoard (g : SimpleReversiGame) (x y : Nat) : Board :=
  (gameFlipPhase (setCell g.board x y (some g.turn)) g.turn x y).1

/-- src/game.rs: `check_can_put(x, y)` — textually the same algorithm as
ArrayBasedBoard::check_can_put with the stored turn as the player. -/
def gameCheckCanPut (g : SimpleReversiGame) (x y : Nat) : Bool :=
  checkCanPut g.board x y g.turn

/-- src/game.rs: `get_can_put_stones()` — the same row-major enumeration as
ArrayBasedBoard::get_can_put_stones with the stored turn as the player. -/
def gameCanPutStones (g : SimpleReversiGame) : List Point :=
  getCanPutStones g.board g.turn

/-- The tail of game.rs put_stone after the game-over check, starting from the
first `set_turn(opposite)` (line 83).  `mover` is the acting player; the
returned game carries the stored turn exactly as the set_turn sequence of the
source leaves it. -/
def gamePutStoneRest (b2 : Board) (mover : Stone) :
    Except ReversiError Unit × SimpleReversiGame :=
  -- set_turn(opposite): the stored turn is now the opponent.
  let next := mover.opposite
  if (getCanPutStones b2 next).isEmpty then
    -- set_turn(opposite) again: back to the mover.
    if (getCanPutStones b2 mover).isEmpty then
      (winner b2, { board := b2, turn := mover })
    else (.error .NextPlayerCantPutStone, { board := b2, turn := mover })
  else if count b2 next == 0 then
    (.error (.GameOverWithWinner next.opposite), { board := b2, turn := next })
  else (.ok (), { board := b2, turn := next })

/-- src/game.rs: `SimpleReversiGame::put_stone(x, y)`. -/
def gamePutStone (g : SimpleReversiGame) (x y : Nat) :
    Except ReversiError Unit × SimpleReversiGame :=
  if ¬ gameCheckCanPut g x y then (.error .InvalidMove, g)
  else
    match placeStone g.board x y g.turn with
    | .error e => (.error e, g)
    | .ok b1 =>
      match gameFlipPhase b1 g.turn x y with
      | (b2, some e) => (.error e, { board := b2, turn := g.turn })
      | (b2, none) =>
        if isGameOver b2 then
          -- `self.winner()?;` — always an Err; Ok branch kept for fidelity.
          match winner b2 with
          | .error e => (.error e, { board := b2, turn := g.turn })
          | .ok _ => gamePutStoneRest b2 g.turn
        else gamePutStoneRest b2 g.turn

/-- src/game.rs: `SimpleReversiGame::new()` — default 8×8 board, the four
central squares seeded, Black to move. -/
def newGame : SimpleReversiGame :=
  { board := initFourCentralSquares (emptyBoard 8), turn := .black }

/-- Modelled from the spec: the three-argument `count_flippable(x, y, color)`
called by SimpleComputer::decide (src/computer.rs line 48).  The board trait
revision implementing it is absent from src/; spec §4.2 defines it as the
total number of stones that would flip across all 8 directions for a
hypothetical placement of `color` at (x, y). -/
def countFlippableFor (b : Board) (x y : Nat) (color : Stone) : Nat :=
  (getFlippable b x y color).length

/-- Flip count of a candidate point, as evaluated by SimpleComputer::decide. -/
def flipCountAt (b : Board) (color : Stone) (p : Point) : Nat :=
  countFlippableFor b p.x p.y color

/-- The `for (i, p) in can_put_stones.iter().enumerate()` max-tracking loop of
SimpleComputer::decide: i is the index of the head of the remaining list,
(mc, mi) the running (max_count, max_index). -/
def decideLoop (b : Board) (color : Stone) :
    List Point → Nat → Nat → Nat → Nat × Nat
  | [], _, mc, mi => (mc, mi)
  | p :: rest, i, mc, mi =>
    let c := flipCountAt b color p
    if mc < c then decideLoop b color rest (i + 1) c i
    else decideLoop b color rest (i + 1) mc mi

/-- src/computer.rs: `SimpleComputer::decide` (greedy flip-count strategy);
`none` models the panic of `can_put_stones[max_index]` on an empty legal-move
list (the spec forbids calling the strategy in that state). -/
def simpleComputerDecide (color : Stone) (b : Board) : Option Point :=
  let cs := getCanPutStones b color
  let r := decideLoop b color cs 0 0 0
  cs[r.2]?

deriving instance DecidableEq for Except

/-! Concrete boards used to instantiate the claim theorems. -/

/-- 4×4 board with the standard central opening (smallest legal size). -/
def std4Board : Board := initFourCentralSquares (emptyBoard 4)

/-- Board for the forced-pass scenario: White (2,0), Black (3,0), White (0,2),
Black (0,3); Black to play (0,1). -/
def c1Board : Board :=
  [[none, none, some .white, some .black],
   [none, none, none, none],
   [some .white, none, none, none],
   [some .black, none, none, none]]

def c1Game : SimpleReversiGame := { board := c1Board, turn := .black }

/-- c1Board after Black plays (0,1) and flips (0,2). -/
def c1After : Board :=
  [[none, none, some .white, some .black],
   [some .black, none, none, none],
   [some .black, none, none, none],
   [some .black, none, none, none]]

/-- Board-full scenario: row 0 is [·, W, W, B], rows 1–3 all White; Black to
play (0,0), flipping (1,0) and (2,0), which fills the board. -/
def c2Board : Board :=
  [[none, some .white, some .white, some .black],
   List.replicate 4 (some .white),
   List.replicate 4 (some .white),
   List.replicate 4 (some .white)]

/-- c2Board after Black plays (0,0). -/
def c2After : Board :=
  [List.replicate 4 (some .black),
   List.replicate 4 (some .white),
   List.replicate 4 (some .white),
   List.replicate 4 (some .white)]

/-- Opponent-elimination scenario: White (1,0), Black (2,0); Black to play
(0,0), flipping White's only stone. -/
def c3Board : Board :=
  [[none, some .white, some .black, none],
   [none, none, none, none],
   [none, none, none, none],
   [none, none, none, none]]

/-- c3Board after Black plays (0,0). -/
def c3After : Board :=
  [[some .black, some .black, some .black, none],
   [none, none, none, none],
   [none, none, none, none],
   [none, none, none, none]]

/-- Greedy-strategy scenario: Black's legal moves are (0,0), flipping 3
stones, and (3,0), flipping 1 stone. -/
def c8Board : Board :=
  [[none, some .white, some .black, none],
   [some .white, none, none, some .white],
   [some .white, none, none, some .black],
   [some .black, none, none, none]]

/-- std4Board after Black plays (1,0) and flips (1,1). -/
def c6After : Board :=
  [[none, some .black, none, none],
   [none, some .black, some .black, none],
   [none, some .black, some .white, none],
   [none, none, none, none]]

/-! ### General lemmas about the board primitives -/

theorem Stone.opposite_opposite (s : Stone) : s.opposite.opposite = s := by
  cases s <;> rfl

theorem Stone.opposite_ne (s : Stone) : s.opposite ≠ s := by
  cases s <;> simp [Stone.opposite]

theorem getAt_eq_some_iff {b : Board} {x y : Nat} {w : Stone} :
    getAt b x y = some w ↔ ∃ row, b[y]? = some row ∧ row[x]? = some (some w) := by
  unfold getAt
  rw [Option.join_eq_some]
  cases hy : b[y]? with
  | none => simp
  | some row => simp

theorem getAt_valid {b : Board} {x y : Nat} {row : List (Option Stone)}
    (hy : b[y]? = some row) (hx : x < row.length) :
    getAt b x y = row[x] := by
  unfold getAt
  rw [hy]
  simp [List.getElem?_eq_getElem hx]

theorem getAt_some_bounds {b : Board} {x y : Nat} {w : Stone}
    (h : getAt b x y = some w) :
    y < b.length ∧ x < (b[y]?.getD []).length := by
  obtain ⟨row, hy, hx⟩ := getAt_eq_some_iff.mp h
  obtain ⟨hyl, _⟩ := List.getElem?_eq_some_iff.mp hy
  obtain ⟨hxl, _⟩ := List.getElem?_eq_some_iff.mp hx
  rw [hy]
  exact ⟨hyl, by simpa using hxl⟩

/-- Setting an index to the value it already holds is the identity. -/
theorem setSelf {α : Type} {l : List α} {i : Nat} {a : α} (h : l[i]? = some a) :
    l.set i a = l := by
  apply List.ext_getElem?
  intro n
  rw [List.getElem?_set]
  by_cases hin : i = n
  · subst hin
    obtain ⟨hlt, _⟩ := List.getElem?_eq_some_iff.mp h
    simp [hlt, h.symm]
  · simp [hin]

theorem length_setCell (b : Board) (x y : Nat) (v : Option Stone) :
    (setCell b x y v).length = b.length := by
  simp [setCell]

theorem rowLens_setCell (b : Board) (x y : Nat) (v : Option Stone) :
    rowLens (setCell b x y v) = rowLens b := by
  unfold setCell rowLens
  rcases Nat.lt_or_ge y b.length with hy | hy
  · have hsome : b[y]? = some b[y] := List.getElem?_eq_getElem hy
    rw [List.map_set, hsome]
    simp only [Option.getD_some, List.length_set]
    apply setSelf
    rw [List.getElem?_map, hsome]
    rfl
  · rw [List.set_eq_of_length_le hy]

theorem isSquare_of_rowLens {b b2 : Board} (hr : rowLens b2 = rowLens b)
    (hs : isSquare b = true) : isSquare b2 = true := by
  have hlen : b2.length = b.length := by
    have h1 : (rowLens b2).length = (rowLens b).length := by rw [hr]
    simpa [rowLens] using h1
  rw [isSquare, List.all_eq_true] at hs ⊢
  intro row hrow
  have hmem : row.length ∈ rowLens b2 := List.mem_map_of_mem _ hrow
  rw [hr] at hmem
  obtain ⟨row', hrow', heq⟩ := List.mem_map.mp hmem
  have h2 := hs row' hrow'
  simp only [beq_iff_eq] at h2 ⊢
  omega

theorem isSquare_setCell {b : Board} {x y : Nat} {v : Option Stone}
    (hs : isSquare b = true) : isSquare (setCell b x y v) = true :=
  isSquare_of_rowLens (rowLens_setCell b x y v) hs

theorem getAt_setCell_self {b : Board} {x y : Nat} (v : Option Stone)
    (hy : y < b.length) (hx : x < (b[y]?.getD []).length) :
    getAt (setCell b x y v) x y = v := by
  have hsome : b[y]? = some b[y] := List.getElem?_eq_getElem hy
  rw [hsome] at hx
  simp only [Option.getD_some] at hx
  unfold getAt setCell
  have h1 : (b.set y ((b[y]?.getD []).set x v))[y]?
      = some ((b[y]?.getD []).set x v) := by
    rw [List.getElem?_set]
    simp [hy]
  rw [h1]
  simp only [Option.some_bind]
  rw [List.getElem?_set]
  rw [hsome]
  simp [hx]

theorem getAt_setCell_other {b : Board} {x y u w : Nat} (v : Option Stone)
    (h : x ≠ u ∨ y ≠ w) :
    getAt (setCell b x y v) u w = getAt b u w := by
  unfold getAt setCell
  by_cases hyw : y = w
  · subst hyw
    have hx : x ≠ u := by
      rcases h with h | h
      · exact h
      · exact absurd rfl h
    rcases Nat.lt_or_ge y b.length with hylt | hyge
    · have hsome : b[y]? = some b[y] := List.getElem?_eq_getElem hylt
      have h1 : (b.set y ((b[y]?.getD []).set x v))[y]?
          = some ((b[y]?.getD []).set x v) := by
        rw [List.getElem?_set]
        simp [hylt]
      rw [h1, hsome]
      simp only [Option.getD_some, Option.some_bind]
      rw [List.getElem?_set]
      simp [hx]
    · have h1 : (b.set y ((b[y]?.getD []).set x v))[y]? = none := by
        rw [List.getElem?_eq_none]
        simpa using hyge
      have h2 : b[y]? = none := List.getElem?_eq_none hyge
      rw [h1, h2]
  · have h1 : (b.set y ((b[y]?.getD []).set x v))[w]? = b[w]? := by
      rw [List.getElem?_set]
      simp [hyw]
    rw [h1]

theorem countP_set_row (p : Option Stone → Bool) :
    ∀ (row : List (Option Stone)) (x : Nat) (v : Option Stone)
      (hx : x < row.length),
      (row.set x v).countP p + (if p row[x] then 1 else 0)
        = row.countP p + (if p v then 1 else 0) := by
  intro row
  induction row with
  | nil => intro x v hx; simp at hx
  | cons c t ih =>
    intro x v hx
    cases x with
    | zero =>
      simp only [List.set_cons_zero, List.countP_cons, List.getElem_cons_zero]
      omega
    | succ n =>
      simp only [List.set_cons_succ, List.countP_cons, List.getElem_cons_succ]
      have := ih n v (by simpa using Nat.lt_of_succ_lt_succ hx)
      omega

theorem countP_flatten_set (p : Option Stone → Bool) :
    ∀ (b : Board) (y : Nat) (r : List (Option Stone)) (hy : y < b.length),
      (b.set y r).flatten.countP p + b[y].countP p
        = b.flatten.countP p + r.countP p := by
  intro b
  induction b with
  | nil => intro y r hy; simp at hy
  | cons row t ih =>
    intro y r hy
    cases y with
    | zero =>
      simp only [List.set_cons_zero, List.flatten_cons, List.countP_append,
        List.getElem_cons_zero]
      omega
    | succ n =>
      simp only [List.set_cons_succ, List.flatten_cons, List.countP_append,
        List.getElem_cons_succ]
      have := ih n r (by simpa using Nat.lt_of_succ_lt_succ hy)
      omega

theorem countP_flatten_setCell (p : Option Stone → Bool) (b : Board)
    (x y : Nat) (v : Option Stone)
    (hy : y < b.length) (hx : x < (b[y]?.getD []).length) :
    (setCell b x y v).flatten.countP p + (if p (getAt b x y) then 1 else 0)
      = b.flatten.countP p + (if p v then 1 else 0) := by
  have hsome : b[y]? = some b[y] := List.getElem?_eq_getElem hy
  rw [hsome] at hx
  simp only [Option.getD_some] at hx
  have hga : getAt b x y = b[y][x] := getAt_valid hsome hx
  unfold setCell
  rw [hsome]
  simp only [Option.getD_some]
  have h1 := countP_flatten_set p b y (b[y].set x v) hy
  have h2 := countP_set_row p b[y] x v hx
  rw [hga]
  omega

theorem getAt_none_of_not_inRange (b : Board) (x y : Nat)
    (hsq : isSquare b = true) (h : inRange b x y = false) :
    getAt b x y = none := by
  have h2 : ¬ (x < size b) ∨ ¬ (y < size b) := by
    by_contra hc
    push_neg at hc
    simp [inRange, hc.1, hc.2] at h
  rcases h2 with h2 | h2
  · unfold getAt
    cases hy : b[y]? with
    | none => simp
    | some row =>
      obtain ⟨hylt, hget⟩ := List.getElem?_eq_some_iff.mp hy
      have hrow : row ∈ b := hget ▸ List.getElem_mem hylt
      have hlen : row.length = b.length := by
        have := (List.all_eq_true.mp hsq) row hrow
        simpa using this
      have : row[x]? = none := by
        apply List.getElem?_eq_none
        unfold size at h2
        omega
      simp [this]
  · unfold getAt
    have : b[y]? = none := by
      apply List.getElem?_eq_none
      simpa [size] using h2
    simp [this]

theorem checkCanPut_false_of_occupied (b : Board) (x y : Nat) (p : Stone)
    (h : (getAt b x y).isSome = true) : checkCanPut b x y p = false := by
  unfold checkCanPut
  split
  · rfl
  · simp [h]

theorem checkCanPut_false_of_oob (b : Board) (x y : Nat) (p : Stone)
    (h : size b ≤ x ∨ size b ≤ y) : checkCanPut b x y p = false := by
  have hr : inRange b x y = false := by
    rcases h with h | h <;> simp [inRange] <;> omega
  unfold checkCanPut
  simp [hr]

theorem putStone_invalid_of_not_can (b : Board) (x y : Nat) (p : Stone)
    (h : checkCanPut b x y p = false) :
    putStone b x y p = some (.error .InvalidMove, b) := by
  unfold putStone
  simp [h]

theorem count_place_self {b : Board} {x y : Nat} (s : Stone)
    (hy : y < b.length) (hx : x < (b[y]?.getD []).length)
    (h : getAt b x y = none) :
    count (setCell b x y (some s)) s = count b s + 1 := by
  have hcc := countP_flatten_setCell (fun c => c == some s) b x y (some s) hy hx
  rw [h] at hcc
  unfold count
  simp only [show (((none : Option Stone) == some s) : Bool) = false from rfl,
    show (((some s : Option Stone) == some s) : Bool) = true from by simp,
    Bool.false_eq_true, if_false, if_true] at hcc
  omega

theorem count_place_other {b : Board} {x y : Nat} {s t : Stone}
    (hy : y < b.length) (hx : x < (b[y]?.getD []).length)
    (h : getAt b x y = none) (hne : t ≠ s) :
    count (setCell b x y (some s)) t = count b t := by
  have hcc := countP_flatten_setCell (fun c => c == some t) b x y (some s) hy hx
  rw [h] at hcc
  unfold count
  simp only [show (((none : Option Stone) == some t) : Bool) = false from rfl,
    show (((some s : Option Stone) == some t) : Bool) = false from by
      simp [Ne.symm hne],
    Bool.false_eq_true, if_false] at hcc
  omega

theorem empty_place {b : Board} {x y : Nat} (s : Stone)
    (hy : y < b.length) (hx : x < (b[y]?.getD []).length)
    (h : getAt b x y = none) :
    emptyCells (setCell b x y (some s)) + 1 = emptyCells b := by
  have hcc := countP_flatten_setCell (fun c => c == none) b x y (some s) hy hx
  rw [h] at hcc
  unfold emptyCells
  simp only [show (((none : Option Stone) == none) : Bool) = true from rfl,
    show (((some s : Option Stone) == none) : Bool) = false from rfl,
    Bool.false_eq_true, if_false, if_true] at hcc
  omega

theorem count_flip_src {b : Board} {x y : Nat} {w : Stone}
    (h : getAt b x y = some w) :
    count (setCell b x y (some w.opposite)) w + 1 = count b w := by
  obtain ⟨hy, hx⟩ := getAt_some_bounds h
  have hcc := countP_flatten_setCell (fun c => c == some w) b x y
    (some w.opposite) hy hx
  rw [h] at hcc
  unfold count
  simp only [show (((some w : Option Stone) == some w) : Bool) = true from by
      simp,
    show (((some w.opposite : Option Stone) == some w) : Bool) = false from by
      simp [Stone.opposite_ne w],
    Bool.false_eq_true, if_false, if_true] at hcc
  omega

theorem count_flip_dst {b : Board} {x y : Nat} {w : Stone}
    (h : getAt b x y = some w) :
    count (setCell b x y (some w.opposite)) w.opposite
      = count b w.opposite + 1 := by
  obtain ⟨hy, hx⟩ := getAt_some_bounds h
  have hcc := countP_flatten_setCell (fun c => c == some w.opposite) b x y
    (some w.opposite) hy hx
  rw [h] at hcc
  unfold count
  simp only [show (((some w : Option Stone) == some w.opposite) : Bool) = false
      from by simp [Ne.symm (Stone.opposite_ne w)],
    show (((some w.opposite : Option Stone) == some w.opposite) : Bool) = true
      from by simp,
    Bool.false_eq_true, if_false, if_true] at hcc
  omega

theorem empty_flip {b : Board} {x y : Nat} {w : Stone} (v : Stone)
    (h : getAt b x y = some w) :
    emptyCells (setCell b x y (some v)) = emptyCells b := by
  obtain ⟨hy, hx⟩ := getAt_some_bounds h
  have hcc := countP_flatten_setCell (fun c => c == none) b x y (some v) hy hx
  rw [h] at hcc
  unfold emptyCells
  simp only [show (((some w : Option Stone) == none) : Bool) = false from rfl,
    show (((some v : Option Stone) == none) : Bool) = false from rfl,
    Bool.false_eq_true, if_false] at hcc
  omega

theorem inRange_of_getAt_some {b : Board} {x y : Nat} {w : Stone}
    (hsq : isSquare b = true) (h : getAt b x y = some w) :
    inRange b x y = true := by
  obtain ⟨row, hy, hx⟩ := getAt_eq_some_iff.mp h
  obtain ⟨hyl, _⟩ := List.getElem?_eq_some_iff.mp hy
  obtain ⟨hxl, _⟩ := List.getElem?_eq_some_iff.mp hx
  have hrow : row ∈ b := by
    obtain ⟨hylt, hget⟩ := List.getElem?_eq_some_iff.mp hy
    exact hget ▸ List.getElem_mem hylt
  have hlen : row.length = b.length := by
    have := (List.all_eq_true.mp hsq) row hrow
    simpa using this
  simp only [inRange, size]
  have : x < b.length := by omega
  simp [this, hyl]

theorem flip_ok {b : Board} {x y : Nat} {w : Stone}
    (hsq : isSquare b = true) (h : getAt b x y = some w) :
    flip b x y = .ok (setCell b x y (some w.opposite)) := by
  unfold flip
  rw [inRange_of_getAt_some hsq h]
  simp [h]

/-! ### The directional scan: characterization and distinctness -/

theorem getAtI_some_elim {b : Board} {x y : Int} {s : Stone}
    (h : getAtI b x y = some s) :
    0 ≤ x ∧ 0 ≤ y ∧ getAt b x.toNat y.toNat = some s := by
  unfold getAtI at h
  split at h
  · next hc => exact ⟨hc.1, hc.2, h⟩
  · simp at h

theorem scanLoop_spec (b : Board) (opp : Stone) (d : Int × Int) :
    ∀ (f : Nat) (sx sy : Int),
      ∃ m, m ≤ f ∧
        (scanLoop b opp d f sx sy).2 = (sx + m * d.1, sy + m * d.2) ∧
        (scanLoop b opp d f sx sy).1 =
          (List.range m).map
            (fun i => ⟨(sx + i * d.1).toNat, (sy + i * d.2).toNat⟩) ∧
        (∀ i : Nat, i < m →
          getAtI b (sx + i * d.1) (sy + i * d.2) = some opp) := by
  intro f
  induction f with
  | zero =>
    intro sx sy
    exact ⟨0, Nat.le_refl 0, by simp [scanLoop], by simp [scanLoop],
      by intro i hi; omega⟩
  | succ f ih =>
    intro sx sy
    by_cases h : getAtI b sx sy = some opp
    · obtain ⟨m, hm, hstop, hstack, hall⟩ := ih (sx + d.1) (sy + d.2)
      have hunf : scanLoop b opp d (f + 1) sx sy
          = (⟨sx.toNat, sy.toNat⟩
              :: (scanLoop b opp d f (sx + d.1) (sy + d.2)).1,
             (scanLoop b opp d f (sx + d.1) (sy + d.2)).2) := by
        rw [scanLoop, if_pos h]
      refine ⟨m + 1, by omega, ?_, ?_, ?_⟩
      · rw [hunf, hstop]
        rw [Prod.mk.injEq]
        constructor <;> push_cast <;> ring
      · rw [hunf, hstack, List.range_succ_eq_map, List.map_cons,
          List.map_map]
        rw [List.cons.injEq]
        constructor
        · rw [Point.mk.injEq]
          constructor <;> simp
        · apply List.map_congr_left
          intro i _
          simp only [Function.comp]
          rw [Point.mk.injEq]
          constructor <;> congr 1 <;> push_cast <;> ring
      · intro i hi
        cases i with
        | zero => simpa using h
        | succ j =>
          have hj := hall j (by omega)
          have e1 : sx + (↑(j + 1) : Int) * d.1 = sx + d.1 + ↑j * d.1 := by
            push_cast; ring
          have e2 : sy + (↑(j + 1) : Int) * d.2 = sy + d.2 + ↑j * d.2 := by
            push_cast; ring
          rw [e1, e2]
          exact hj
    · have hunf : scanLoop b opp d (f + 1) sx sy = ([], (sx, sy)) := by
        rw [scanLoop, if_neg h]
      exact ⟨0, by omega, by rw [hunf]; simp, by rw [hunf]; simp,
        by intro i hi; omega⟩

theorem mem_scanLoop {b : Board} {opp : Stone} {d : Int × Int} {f : Nat}
    {sx sy : Int} {p : Point} (hp : p ∈ (scanLoop b opp d f sx sy).1) :
    ∃ i : Nat, p = ⟨(sx + i * d.1).toNat, (sy + i * d.2).toNat⟩ ∧
      getAtI b (sx + i * d.1) (sy + i * d.2) = some opp := by
  obtain ⟨m, _, _, hstack, hall⟩ := scanLoop_spec b opp d f sx sy
  rw [hstack] at hp
  obtain ⟨i, hir, hieq⟩ := List.mem_map.mp hp
  exact ⟨i, hieq.symm, hall i (List.mem_range.mp hir)⟩

theorem mem_dirFlippable {b : Board} {player : Stone} {x y : Nat}
    {d : Int × Int} {p : Point} (hp : p ∈ dirFlippable b player x y d) :
    ∃ k : Int, 1 ≤ k ∧
      getAtI b ((x : Int) + k * d.1) ((y : Int) + k * d.2)
        = some player.opposite ∧
      p = ⟨((x : Int) + k * d.1).toNat, ((y : Int) + k * d.2).toNat⟩ := by
  simp only [dirFlippable] at hp
  split at hp
  · simp at hp
  · split at hp
    · obtain ⟨i, hpe, hget⟩ := mem_scanLoop hp
      refine ⟨(i : Int) + 1, by omega, ?_, ?_⟩
      · have e1 : (x : Int) + ((i : Int) + 1) * d.1
            = (x : Int) + d.1 + (i : Int) * d.1 := by ring
        have e2 : (y : Int) + ((i : Int) + 1) * d.2
            = (y : Int) + d.2 + (i : Int) * d.2 := by ring
        rw [e1, e2]
        exact hget
      · rw [hpe, Point.mk.injEq]
        constructor <;> congr 1 <;> ring
    · simp at hp

theorem mem_getFlippable_opp {b : Board} {x y : Nat} {player : Stone}
    {p : Point} (hp : p ∈ getFlippable b x y player) :
    getAt b p.x p.y = some player.opposite := by
  unfold getFlippable at hp
  rw [List.mem_flatten] at hp
  obtain ⟨l, hl, hpl⟩ := hp
  obtain ⟨d, _, hdl⟩ := List.mem_map.mp hl
  rw [← hdl] at hpl
  obtain ⟨k, _, hget, hpe⟩ := mem_dirFlippable hpl
  obtain ⟨_, _, hgat⟩ := getAtI_some_elim hget
  rw [hpe]
  exact hgat

theorem dir_cases {d : Int × Int} (hd : d ∈ DIRECTIONS) :
    (d.1 = -1 ∨ d.1 = 0 ∨ d.1 = 1) ∧ (d.2 = -1 ∨ d.2 = 0 ∨ d.2 = 1) ∧
      ¬(d.1 = 0 ∧ d.2 = 0) := by
  fin_cases hd <;> decide

theorem dirComp_eq {a c k j : Int} (ha : a = -1 ∨ a = 0 ∨ a = 1)
    (hc : c = -1 ∨ c = 0 ∨ c = 1) (hk : 1 ≤ k) (hj : 1 ≤ j)
    (h : k * a = j * c) : a = c := by
  rcases ha with rfl | rfl | rfl <;> rcases hc with rfl | rfl | rfl <;> omega

theorem dir_mul_injective {d e : Int × Int} (hd : d ∈ DIRECTIONS)
    (he : e ∈ DIRECTIONS) (k j : Int) (hk : 1 ≤ k) (hj : 1 ≤ j)
    (h1 : k * d.1 = j * e.1) (h2 : k * d.2 = j * e.2) : d = e ∧ k = j := by
  obtain ⟨hd1, hd2, hd0⟩ := dir_cases hd
  obtain ⟨he1, he2, _⟩ := dir_cases he
  have e1 : d.1 = e.1 := dirComp_eq hd1 he1 hk hj h1
  have e2 : d.2 = e.2 := dirComp_eq hd2 he2 hk hj h2
  refine ⟨Prod.ext_iff.mpr ⟨e1, e2⟩, ?_⟩
  rw [← e1] at h1
  rw [← e2] at h2
  by_cases hz : d.1 = 0
  · have hnz : d.2 ≠ 0 := fun hzz => hd0 ⟨hz, hzz⟩
    rcases hd2 with hv | hv | hv <;> rw [hv] at h2 <;> omega
  · rcases hd1 with hv | hv | hv <;> rw [hv] at h1 <;> omega

theorem dirFlippable_nodup (b : Board) (player : Stone) (x y : Nat)
    (d : Int × Int) (hd : d ∈ DIRECTIONS) :
    (dirFlippable b player x y d).Nodup := by
  simp only [dirFlippable]
  split
  · exact List.nodup_nil
  · split
    · obtain ⟨m, _, _, hstack, hall⟩ :=
        scanLoop_spec b player.opposite d (fuel b)
          ((x : Int) + d.1) ((y : Int) + d.2)
      rw [hstack]
      apply List.Nodup.map_on ?_ (List.nodup_range m)
      intro i hi j hj heq
      rw [List.mem_range] at hi hj
      obtain ⟨hxi, hyi, _⟩ := getAtI_some_elim (hall i hi)
      obtain ⟨hxj, hyj, _⟩ := getAtI_some_elim (hall j hj)
      rw [Point.mk.injEq] at heq
      obtain ⟨heqx, heqy⟩ := heq
      obtain ⟨hd1, hd2, hd0⟩ := dir_cases hd
      rcases hd1 with h | h | h <;> rcases hd2 with g | g | g <;>
        (simp only [h, g] at hxi hxj hyi hyj heqx heqy; omega)
    · exact List.nodup_nil

theorem getFlippable_nodup (b : Board) (x y : Nat) (player : Stone) :
    (getFlippable b x y player).Nodup := by
  unfold getFlippable
  rw [List.nodup_flatten]
  constructor
  · intro l hl
    obtain ⟨d, hd, hdl⟩ := List.mem_map.mp hl
    rw [← hdl]
    exact dirFlippable_nodup b player x y d hd
  · rw [List.pairwise_map]
    have hpair : DIRECTIONS.Pairwise (· ≠ ·) := by decide
    refine List.Pairwise.imp_of_mem ?_ hpair
    intro d e hdm hem hne
    intro p hp1 hp2
    obtain ⟨k, hk1, hkg, hkp⟩ := mem_dirFlippable hp1
    obtain ⟨j, hj1, hjg, hjp⟩ := mem_dirFlippable hp2
    obtain ⟨hxk, hyk, _⟩ := getAtI_some_elim hkg
    obtain ⟨hxj, hyj, _⟩ := getAtI_some_elim hjg
    rw [hkp, Point.mk.injEq] at hjp
    have h1 : k * d.1 = j * e.1 := by omega
    have h2 : k * d.2 = j * e.2 := by omega
    exact hne (dir_mul_injective hdm hem k j hk1 hj1 h1 h2).1

theorem point_ne_coords {p q : Point} (h : q ≠ p) :
    p.x ≠ q.x ∨ p.y ≠ q.y := by
  by_contra hc
  push_neg at hc
  exact h (by cases p; cases q; simp_all)

/-- Running the flip loop over a duplicate-free list of cells that all hold
the opponent's stone succeeds and performs exactly one recoloring per cell. -/
theorem flipAllGo_spec (player : Stone) :
    ∀ (l : List Point) (b : Board), isSquare b = true → l.Nodup →
      (∀ p ∈ l, getAt b p.x p.y = some player.opposite) →
      ∃ b2, flipAllGo b l = some b2 ∧
        rowLens b2 = rowLens b ∧
        (∀ u w : Nat, (∀ p ∈ l, ¬(p.x = u ∧ p.y = w)) →
          getAt b2 u w = getAt b u w) ∧
        count b2 player = count b player + l.length ∧
        count b2 player.opposite + l.length = count b player.opposite ∧
        emptyCells b2 = emptyCells b := by
  intro l
  induction l with
  | nil =>
    intro b _ _ _
    exact ⟨b, rfl, rfl, fun u w _ => rfl, by simp, by simp, rfl⟩
  | cons p ps ih =>
    intro b hsq hnd hall
    have hp : getAt b p.x p.y = some player.opposite := hall p (by simp)
    have hflipRaw := flip_ok hsq hp
    rw [Stone.opposite_opposite] at hflipRaw
    have hsq1 : isSquare (setCell b p.x p.y (some player)) = true :=
      isSquare_setCell hsq
    have hrl1 : rowLens (setCell b p.x p.y (some player)) = rowLens b :=
      rowLens_setCell b p.x p.y (some player)
    have hcnt1 : count (setCell b p.x p.y (some player)) player
        = count b player + 1 := by
      have h1 := count_flip_dst hp
      rwa [Stone.opposite_opposite] at h1
    have hcnt2 : count (setCell b p.x p.y (some player)) player.opposite + 1
        = count b player.opposite := by
      have h1 := count_flip_src hp
      rwa [Stone.opposite_opposite] at h1
    have hemp1 : emptyCells (setCell b p.x p.y (some player)) = emptyCells b :=
      empty_flip player hp
    have hother : ∀ q : Point, q ≠ p →
        getAt (setCell b p.x p.y (some player)) q.x q.y = getAt b q.x q.y :=
      fun q hq => getAt_setCell_other (some player) (point_ne_coords hq)
    have hpnotin : p ∉ ps := (List.nodup_cons.mp hnd).1
    have hall1 : ∀ q ∈ ps,
        getAt (setCell b p.x p.y (some player)) q.x q.y
          = some player.opposite := by
      intro q hq
      have hqp : q ≠ p := fun he => hpnotin (he ▸ hq)
      rw [hother q hqp]
      exact hall q (List.mem_cons_of_mem p hq)
    obtain ⟨b2, hgo, hrl, hpres, hc1, hc2, hemp⟩ :=
      ih (setCell b p.x p.y (some player)) hsq1 (List.nodup_cons.mp hnd).2
        hall1
    have hstep : flipAllGo b (p :: ps)
        = flipAllGo (setCell b p.x p.y (some player)) ps := by
      show (match flip b p.x p.y with
            | .ok b2 => flipAllGo b2 ps
            | .error _ => none) = _
      rw [hflipRaw]
    refine ⟨b2, by rw [hstep]; exact hgo, by rw [hrl, hrl1], ?_, ?_, ?_, ?_⟩
    · intro u w hcond
      have hpc : ¬(p.x = u ∧ p.y = w) := hcond p (by simp)
      have h1 : getAt b2 u w = getAt (setCell b p.x p.y (some player)) u w :=
        hpres u w fun q hq => hcond q (List.mem_cons_of_mem p hq)
      rw [h1]
      apply getAt_setCell_other
      by_contra hc
      push_neg at hc
      exact hpc ⟨by omega, by omega⟩
    · simp only [List.length_cons]
      omega
    · simp only [List.length_cons]
      omega
    · rw [hemp, hemp1]

theorem count_pos_of_getAt_some {b : Board} {u w : Nat} {s : Stone}
    (h : getAt b u w = some s) : 0 < count b s := by
  obtain ⟨row, hy, hx⟩ := getAt_eq_some_iff.mp h
  have hrowmem : row ∈ b := by
    obtain ⟨hyl, hget⟩ := List.getElem?_eq_some_iff.mp hy
    exact hget ▸ List.getElem_mem hyl
  have hcellmem : (some s : Option Stone) ∈ row := by
    obtain ⟨hxl, hget⟩ := List.getElem?_eq_some_iff.mp hx
    exact hget ▸ List.getElem_mem hxl
  unfold count
  rw [List.countP_pos_iff]
  exact ⟨some s, List.mem_flatten_of_mem hrowmem hcellmem, by simp⟩

theorem checkCanPut_empty {b : Board} {x y : Nat} {q : Stone}
    (h : checkCanPut b x y q = true) :
    inRange b x y = true ∧ getAt b x y = none := by
  unfold checkCanPut at h
  split at h
  · simp at h
  · split at h
    · simp at h
    · next h1 h2 =>
      constructor
      · by_contra hc
        exact h1 (by simpa using hc)
      · cases hg : getAt b x y with
        | none => rfl
        | some s => exact absurd (by simp [hg]) h2

theorem checkCanPut_stone_exists {b : Board} {x y : Nat} {q : Stone}
    (h : checkCanPut b x y q = true) :
    (∃ u w, getAt b u w = some q) ∧
      (∃ u w, getAt b u w = some q.opposite) := by
  unfold checkCanPut at h
  split at h
  · simp at h
  · split at h
    · simp at h
    · rw [List.any_eq_true] at h
      obtain ⟨d, _, hcond⟩ := h
      simp only at hcond
      split at hcond
      · simp at hcond
      · rw [Bool.and_eq_true] at hcond
        obtain ⟨hstop, hne⟩ := hcond
        constructor
        · have hg := of_decide_eq_true hstop
          obtain ⟨_, _, hq⟩ := getAtI_some_elim hg
          exact ⟨_, _, hq⟩
        · have hnn : (scanLoop b q.opposite d (fuel b)
              ((x : Int) + d.1) ((y : Int) + d.2)).1 ≠ [] := by
            intro hnil
            rw [hnil] at hne
            simp at hne
          obtain ⟨p, hp⟩ := List.exists_mem_of_ne_nil _ hnn
          obtain ⟨i, _, hg⟩ := mem_scanLoop hp
          obtain ⟨_, _, hq⟩ := getAtI_some_elim hg
          exact ⟨_, _, hq⟩

theorem canPut_nil_of_no_stone {b : Board} {q : Stone}
    (hq : count b q = 0 ∨ count b q.opposite = 0) :
    getCanPutStones b q = [] := by
  have hfalse : ∀ u w, checkCanPut b u w q = false := by
    intro u w
    by_contra hc
    have ht : checkCanPut b u w q = true := by
      cases hcc : checkCanPut b u w q
      · exact absurd hcc hc
      · rfl
    obtain ⟨⟨u1, w1, hs1⟩, ⟨u2, w2, hs2⟩⟩ := checkCanPut_stone_exists ht
    rcases hq with hq | hq
    · have := count_pos_of_getAt_some hs1
      omega
    · have := count_pos_of_getAt_some hs2
      omega
  unfold getCanPutStones
  simp [List.flatMap_eq_nil_iff, List.filterMap_eq_nil_iff, hfalse]

theorem mem_getCanPutStones {b : Board} {q : Stone} {p : Point}
    (hp : p ∈ getCanPutStones b q) : checkCanPut b p.x p.y q = true := by
  unfold getCanPutStones at hp
  rw [List.mem_flatMap] at hp
  obtain ⟨w, _, hp2⟩ := hp
  rw [List.mem_filterMap] at hp2
  obtain ⟨u, _, hif⟩ := hp2
  split at hif
  · next hcc =>
    cases hif
    exact hcc
  · cases hif

theorem flatten_length_of_rows {b : Board} {n : Nat}
    (h : ∀ row ∈ b, row.length = n) : b.flatten.length = b.length * n := by
  induction b with
  | nil => simp
  | cons r t ih =>
    simp only [List.flatten_cons, List.length_append, List.length_cons]
    rw [h r (by simp), ih (fun row hr => h row (List.mem_cons_of_mem r hr))]
    ring

theorem countP_bw (l : List (Option Stone)) :
    l.countP (fun c => c == some Stone.black)
      + l.countP (fun c => c == some Stone.white)
      = l.countP (fun c => c.isSome) := by
  induction l with
  | nil => simp
  | cons c t ih =>
    rcases c with _ | s
    · simp only [List.countP_cons]
      simp
      omega
    · cases s <;> simp only [List.countP_cons] <;> simp <;> omega

theorem stonesTotal_lt_of_empty {b : Board} {x y : Nat}
    (hsq : isSquare b = true) (hr : inRange b x y = true)
    (hg : getAt b x y = none) :
    stonesTotal b < size b * size b := by
  have hrows : ∀ row ∈ b, row.length = b.length := by
    intro row hr2
    have := (List.all_eq_true.mp hsq) row hr2
    simpa using this
  have hflen : b.flatten.length = b.length * b.length :=
    flatten_length_of_rows hrows
  have hxy : x < b.length ∧ y < b.length := by
    simp [inRange, size] at hr
    omega
  have hrowy : b[y]? = some b[y] := List.getElem?_eq_getElem hxy.2
  have hxr : x < (b[y]).length := by
    rw [hrows (b[y]) (List.getElem_mem hxy.2)]
    exact hxy.1
  have hcell : (b[y])[x] = none := by
    have := getAt_valid hrowy hxr
    rw [hg] at this
    exact this.symm
  have hmem : (none : Option Stone) ∈ b.flatten :=
    List.mem_flatten_of_mem (List.getElem_mem hxy.2)
      (hcell ▸ List.getElem_mem hxr)
  have hlt : b.flatten.countP (fun c => c.isSome) < b.flatten.length := by
    have hle : b.flatten.countP (fun c => c.isSome) ≤ b.flatten.length :=
      List.countP_le_length _
    rcases Nat.lt_or_ge (b.flatten.countP (fun c => c.isSome))
        b.flatten.length with hl | hl
    · exact hl
    · have heq : b.flatten.countP (fun c => c.isSome) = b.flatten.length := by
        omega
      have := (List.countP_eq_length.mp heq) none hmem
      simp at this
  have hbw := countP_bw b.flatten
  unfold stonesTotal count size
  omega

theorem isGameOver_false_of_canPut {b : Board} {x y : Nat} {q : Stone}
    (hsq : isSquare b = true) (h : checkCanPut b x y q = true) :
    isGameOver b = false := by
  obtain ⟨hr, hg⟩ := checkCanPut_empty h
  have hlt := stonesTotal_lt_of_empty hsq hr hg
  unfold isGameOver
  rw [beq_eq_false_iff_ne]
  unfold stonesTotal at hlt
  omega

theorem winner_black {b : Board} (h : count b .white < count b .black) :
    winner b = .error (.GameOverWithWinner .black) := by
  unfold winner
  rw [if_pos (by omega)]

theorem winner_white {b : Board} (h : count b .black < count b .white) :
    winner b = .error (.GameOverWithWinner .white) := by
  unfold winner
  rw [if_neg (by omega), if_pos (by omega)]

theorem winner_draw {b : Board} (h : count b .black = count b .white) :
    winner b = .error .GameOverWithDraw := by
  unfold winner
  rw [if_neg (by omega), if_neg (by omega)]

theorem winner_error (b : Board) : ∃ e, winner b = .error e := by
  rcases Nat.lt_trichotomy (count b .black) (count b .white) with h | h | h
  · exact ⟨_, winner_white h⟩
  · exact ⟨_, winner_draw h⟩
  · exact ⟨_, winner_black h⟩

theorem putStone_step {b : Board} {x y : Nat} {player : Stone}
    (h : checkCanPut b x y player = true) {b2 : Board}
    (hm : moveBoard b x y player = some b2) :
    putStone b x y player
      = if isGameOver b2 then
          match winner b2 with
          | .error e => some (.error e, b2)
          | .ok _ => some (putStoneRest b2 player)
        else some (putStoneRest b2 player) := by
  obtain ⟨hr, hg⟩ := checkCanPut_empty h
  have hxy : x < size b ∧ y < size b := by
    simp [inRange] at hr
    omega
  unfold putStone
  rw [if_neg (by simp [h])]
  rw [if_neg (by omega)]
  rw [if_neg (by simp [hg])]
  rw [hm]

/-- Placement followed by the flip loop: success and exact stone deltas. -/
theorem moveBoard_spec {b : Board} {x y : Nat} (player : Stone)
    (hsq : isSquare b = true) (hr : inRange b x y = true)
    (hg : getAt b x y = none) :
    ∃ b2, moveBoard b x y player = some b2 ∧
      isSquare b2 = true ∧
      count b2 player = count b player + 1
        + (getFlippable (setCell b x y (some player)) x y player).length ∧
      count b2 player.opposite
        + (getFlippable (setCell b x y (some player)) x y player).length
        = count b player.opposite ∧
      stonesTotal b2 = stonesTotal b + 1 ∧
      emptyCells b2 + 1 = emptyCells b := by
  have hxy : x < size b ∧ y < size b := by
    simp [inRange] at hr
    omega
  have hylen : y < b.length := by
    have := hxy.2
    unfold size at this
    omega
  have hxlen : x < (b[y]?.getD []).length := by
    rw [List.getElem?_eq_getElem hylen]
    simp only [Option.getD_some]
    have hrl : (b[y]).length = b.length := by
      have := (List.all_eq_true.mp hsq) (b[y]) (List.getElem_mem hylen)
      simpa using this
    rw [hrl]
    have := hxy.1
    unfold size at this
    omega
  have hc1 : count (setCell b x y (some player)) player
      = count b player + 1 := count_place_self player hylen hxlen hg
  have hc2 : count (setCell b x y (some player)) player.opposite
      = count b player.opposite :=
    count_place_other hylen hxlen hg (Stone.opposite_ne player)
  have hemp : emptyCells (setCell b x y (some player)) + 1 = emptyCells b :=
    empty_place player hylen hxlen hg
  have hsq1 : isSquare (setCell b x y (some player)) = true :=
    isSquare_setCell hsq
  obtain ⟨b2, hgo, hrl2, _, hf1, hf2, hfe⟩ :=
    flipAllGo_spec player
      (getFlippable (setCell b x y (some player)) x y player)
      (setCell b x y (some player)) hsq1
      (getFlippable_nodup (setCell b x y (some player)) x y player)
      (fun p hp => mem_getFlippable_opp hp)
  refine ⟨b2, hgo, isSquare_of_rowLens hrl2 hsq1, by omega, by omega, ?_, ?_⟩
  · unfold stonesTotal
    cases player <;>
      simp only [Stone.opposite] at hf1 hf2 hc1 hc2 <;> omega
  · omega

theorem putStoneRest_snd (b2 : Board) (p : Stone) :
    (putStoneRest b2 p).2 = b2 := by
  unfold putStoneRest
  split
  · split <;> rfl
  · split <;> rfl

/-! ### Claims C2, C3, C6, C9 -/

/-- C2: winner() is exactly the stone-count comparison, and both terminal
paths of put_stone (board full; both sides without a legal move) report
exactly winner() on the post-move board. -/
theorem claim2_winner_stone_counts :
    (∀ b : Board,
      (winner b = .error (.GameOverWithWinner .black)
        ↔ count b .white < count b .black) ∧
      (winner b = .error (.GameOverWithWinner .white)
        ↔ count b .black < count b .white) ∧
      (winner b = .error .GameOverWithDraw
        ↔ count b .black = count b .white)) ∧
    (∀ (b : Board) (x y : Nat) (player : Stone) (b2 : Board),
      checkCanPut b x y player = true → moveBoard b x y player = some b2 →
      (isGameOver b2 = true → putStone b x y player = some (winner b2, b2)) ∧
      (isGameOver b2 = false →
        (getCanPutStones b2 player.opposite).isEmpty = true →
        (getCanPutStones b2 player).isEmpty = true →
        putStone b x y player = some (winner b2, b2))) := by
  constructor
  · intro b
    refine ⟨⟨?_, winner_black⟩, ⟨?_, winner_white⟩, ⟨?_, winner_draw⟩⟩
    · intro h
      rcases Nat.lt_trichotomy (count b .black) (count b .white)
        with h1 | h1 | h1
      · rw [winner_white h1] at h
        simp at h
      · rw [winner_draw h1] at h
        simp at h
      · exact h1
    · intro h
      rcases Nat.lt_trichotomy (count b .black) (count b .white)
        with h1 | h1 | h1
      · exact h1
      · rw [winner_draw h1] at h
        simp at h
      · rw [winner_black h1] at h
        simp at h
    · intro h
      rcases Nat.lt_trichotomy (count b .black) (count b .white)
        with h1 | h1 | h1
      · rw [winner_white h1] at h
        simp at h
      · exact h1
      · rw [winner_black h1] at h
        simp at h
  · intro b x y player b2 hcc hm
    constructor
    · intro hfull
      rw [putStone_step hcc hm, if_pos hfull]
      obtain ⟨e, he⟩ := winner_error b2
      rw [he]
    · intro hnf h1 h2
      rw [putStone_step hcc hm, if_neg (by simp [hnf])]
      unfold putStoneRest
      rw [if_pos h1, if_pos h2]

theorem claim2_witness :
    checkCanPut c2Board 0 0 .black = true ∧
      moveBoard c2Board 0 0 .black = some c2After ∧
      isGameOver c2After = true ∧
      putStone c2Board 0 0 .black = some (winner c2After, c2After) ∧
      winner c2After = .error (.GameOverWithWinner .white) := by
  refine ⟨by decide, by decide, by decide, ?_, by decide⟩
  exact (claim2_winner_stone_counts.2 c2Board 0 0 .black c2After (by decide)
    (by decide)).1 (by decide)

/-- C3: if the opponent owns zero stones after the placement and flips, the
call reports GameOverWithWinner(player) immediately, full board or not.  (In
the code this happens through the double-pass winner() path — the dedicated
count==0 shortcut is unreachable — but the reported outcome is exactly the
claimed one, since the mover owns at least the just-placed stone.) -/
theorem claim3_opponent_eliminated (b : Board) (x y : Nat) (player : Stone)
    (b2 : Board) (hsq : isSquare b = true)
    (h : checkCanPut b x y player = true)
    (hm : moveBoard b x y player = some b2)
    (hz : count b2 player.opposite = 0) :
    putStone b x y player
      = some (.error (.GameOverWithWinner player), b2) := by
  obtain ⟨hr, hg⟩ := checkCanPut_empty h
  obtain ⟨b2w, hmw, _, hcp, _, _, _⟩ := moveBoard_spec player hsq hr hg
  rw [hmw] at hm
  have hbe : b2w = b2 := Option.some_inj.mp hm
  subst hbe
  have hpos : 0 < count b2w player := by omega
  have hwin : winner b2w = .error (.GameOverWithWinner player) := by
    cases player
    · simp only [Stone.opposite] at hz
      exact winner_black (by omega)
    · simp only [Stone.opposite] at hz
      exact winner_white (by omega)
  have hq1 : getCanPutStones b2w player.opposite = [] :=
    canPut_nil_of_no_stone (Or.inl hz)
  have hq2 : getCanPutStones b2w player = [] :=
    canPut_nil_of_no_stone (Or.inr hz)
  rw [putStone_step h hmw]
  by_cases hfull : isGameOver b2w
  · rw [if_pos hfull, hwin]
  · rw [if_neg hfull]
    unfold putStoneRest
    rw [hq1, hq2]
    simp only [List.isEmpty_nil, if_true]
    rw [hwin]

theorem claim3_witness :
    checkCanPut c3Board 0 0 .black = true ∧
      moveBoard c3Board 0 0 .black = some c3After ∧
      count c3After Stone.black.opposite = 0 ∧
      putStone c3Board 0 0 .black
        = some (.error (.GameOverWithWinner .black), c3After) := by
  refine ⟨by decide, by decide, by decide, ?_⟩
  exact claim3_opponent_eliminated c3Board 0 0 .black c3After (by decide)
    (by decide) (by decide) (by decide)

/-- C6 counterexample: from the standard 4×4 opening, Black's legal move
(1,0) flips exactly 1 stone, yet the total stone count goes from 4 to 5 —
an increase of 1, not 1 + 1 as the claim states (flips recolor stones, they
do not add any). -/
theorem claim6_counterexample :
    checkCanPut std4Board 1 0 .black = true ∧
      moveBoard std4Board 1 0 .black = some c6After ∧
      (getFlippable (setCell std4Board 1 0 (some .black)) 1 0 .black).length
        = 1 ∧
      stonesTotal std4Board = 4 ∧ stonesTotal c6After = 5 ∧
      stonesTotal c6After
        ≠ stonesTotal std4Board
          + (1 + (getFlippable (setCell std4Board 1 0 (some .black)) 1 0
              .black).length) := by
  refine ⟨by decide, by decide, by decide, by decide, by decide, by decide⟩

/-- C6 (amended): a legal move increases the acting player's stone count by
exactly 1 + (flipped count), the total stone count by exactly 1, and
decreases the number of empty cells by exactly 1. -/
theorem claim6_stone_deltas (b : Board) (x y : Nat) (player : Stone)
    (hsq : isSquare b = true) (h : checkCanPut b x y player = true) :
    ∃ b2, moveBoard b x y player = some b2 ∧
      (∃ r, putStone b x y player = some (r, b2)) ∧
      count b2 player = count b player + 1
        + (getFlippable (setCell b x y (some player)) x y player).length ∧
      stonesTotal b2 = stonesTotal b + 1 ∧
      emptyCells b2 + 1 = emptyCells b := by
  obtain ⟨hr, hg⟩ := checkCanPut_empty h
  obtain ⟨b2, hm, _, hcp, _, hst, hemp⟩ := moveBoard_spec player hsq hr hg
  refine ⟨b2, hm, ?_, hcp, hst, hemp⟩
  rw [putStone_step h hm]
  by_cases hfull : isGameOver b2
  · rw [if_pos hfull]
    obtain ⟨e, he⟩ := winner_error b2
    rw [he]
    exact ⟨.error e, rfl⟩
  · rw [if_neg hfull]
    exact ⟨(putStoneRest b2 player).1,
      congrArg some (Prod.ext_iff.mpr ⟨rfl, putStoneRest_snd b2 player⟩)⟩

theorem claim6_witness :
    isSquare std4Board = true ∧ checkCanPut std4Board 1 0 .black = true ∧
      ∃ b2, moveBoard std4Board 1 0 .black = some b2 ∧
        (∃ r, putStone std4Board 1 0 .black = some (r, b2)) ∧
        count b2 .black = count std4Board .black + 1
          + (getFlippable (setCell std4Board 1 0 (some .black)) 1 0
              .black).length ∧
        stonesTotal b2 = stonesTotal std4Board + 1 ∧
        emptyCells b2 + 1 = emptyCells std4Board :=
  ⟨by decide, by decide,
    claim6_stone_deltas std4Board 1 0 .black (by decide) (by decide)⟩

/-- C9: for a move accepted by the legality check, the internal flip loop of
put_stone cannot fail: the unwrap never panics (putStone is never `none`),
and every point listed by get_flippable still holds an opponent stone at the
moment the loop reaches it. -/
theorem claim9_flips_never_fail (b : Board) (x y : Nat) (player : Stone)
    (hsq : isSquare b = true) (hcc : checkCanPut b x y player = true) :
    putStone b x y player ≠ none ∧
    (∀ (l1 : List Point) (pt : Point) (l2 : List Point),
      getFlippable (setCell b x y (some player)) x y player
        = l1 ++ pt :: l2 →
      ∃ bmid, flipAllGo (setCell b x y (some player)) l1 = some bmid ∧
        getAt bmid pt.x pt.y = some player.opposite) := by
  obtain ⟨hr, hg⟩ := checkCanPut_empty hcc
  obtain ⟨b2, hm, _, _, _, _, _⟩ := moveBoard_spec player hsq hr hg
  constructor
  · rw [putStone_step hcc hm]
    by_cases hfull : isGameOver b2
    · rw [if_pos hfull]
      obtain ⟨e, he⟩ := winner_error b2
      rw [he]
      simp
    · rw [if_neg hfull]
      simp
  · intro l1 pt l2 heq
    have hnd := getFlippable_nodup (setCell b x y (some player)) x y player
    rw [heq] at hnd
    have hl1nd : l1.Nodup := (List.nodup_append.mp hnd).1
    have hdisj := (List.nodup_append.mp hnd).2.2
    have hptnot : pt ∉ l1 := fun hmem =>
      hdisj hmem (List.mem_cons_self pt l2)
    have hsq1 : isSquare (setCell b x y (some player)) = true :=
      isSquare_setCell hsq
    obtain ⟨bmid, hgo, _, hpres, _, _, _⟩ :=
      flipAllGo_spec player l1 (setCell b x y (some player)) hsq1 hl1nd
        (fun p hp => mem_getFlippable_opp
          (heq ▸ List.mem_append_left _ hp))
    refine ⟨bmid, hgo, ?_⟩
    have hpt : getAt (setCell b x y (some player)) pt.x pt.y
        = some player.opposite :=
      mem_getFlippable_opp
        (heq ▸ List.mem_append_right _ (List.mem_cons_self pt l2))
    rw [← hpt]
    apply hpres
    intro p hp hc
    have hpe : p = pt := by
      cases p
      cases pt
      simp_all
    exact hptnot (hpe ▸ hp)

theorem claim9_witness :
    (isSquare std4Board = true ∧ checkCanPut std4Board 1 0 .black = true) ∧
      putStone std4Board 1 0 .black ≠ none ∧
      (∃ bmid,
        flipAllGo (setCell std4Board 1 0 (some .black)) [] = some bmid ∧
          getAt bmid 1 1 = some Stone.black.opposite) := by
  refine ⟨⟨by decide, by decide⟩, ?_, ?_⟩
  · exact (claim9_flips_never_fail std4Board 1 0 .black (by decide)
      (by decide)).1
  · exact (claim9_flips_never_fail std4Board 1 0 .black (by decide)
      (by decide)).2 [] ⟨1, 1⟩ [] (by decide)

/-! ### The game-level flip phase never fails (claim C1 machinery) -/

theorem isSome_setCell {b : Board} {x y : Nat} {w : Stone} (v : Stone)
    (h : getAt b x y = some w) :
    ∀ u z : Nat, (getAt b u z).isSome = true →
      (getAt (setCell b x y (some v)) u z).isSome = true := by
  intro u z hsome
  by_cases hc : x = u ∧ y = z
  · obtain ⟨hy, hx⟩ := getAt_some_bounds h
    rw [← hc.1, ← hc.2]
    rw [getAt_setCell_self (some v) hy hx]
    rfl
  · have hne : x ≠ u ∨ y ≠ z := by
      by_contra hcc
      push_neg at hcc
      exact hc ⟨hcc.1, hcc.2⟩
    rw [getAt_setCell_other (some v) hne]
    exact hsome

theorem flipRun_ok : ∀ (l : List Point) (b : Board), isSquare b = true →
    (∀ p ∈ l, (getAt b p.x p.y).isSome = true) →
    ∃ b2, flipRun b l = (b2, none) ∧ rowLens b2 = rowLens b ∧
      (∀ u w : Nat, (getAt b u w).isSome = true →
        (getAt b2 u w).isSome = true) := by
  intro l
  induction l with
  | nil =>
    intro b _ _
    exact ⟨b, rfl, rfl, fun u w h => h⟩
  | cons p ps ih =>
    intro b hsq hall
    have hps : (getAt b p.x p.y).isSome = true := hall p (by simp)
    obtain ⟨w, hw⟩ := Option.isSome_iff_exists.mp hps
    have hflip := flip_ok hsq hw
    have hsq1 : isSquare (setCell b p.x p.y (some w.opposite)) = true :=
      isSquare_setCell hsq
    have hpres := isSome_setCell w.opposite hw
    obtain ⟨b2, hrun, hrl, hpres2⟩ :=
      ih (setCell b p.x p.y (some w.opposite)) hsq1
        (fun q hq => hpres q.x q.y (hall q (List.mem_cons_of_mem p hq)))
    refine ⟨b2, ?_, by rw [hrl, rowLens_setCell], ?_⟩
    · show (match flip b p.x p.y with
            | .ok b2 => flipRun b2 ps
            | .error e => (b, some e)) = (b2, none)
      rw [hflip]
      exact hrun
    · intro u z h
      exact hpres2 u z (hpres u z h)

theorem gameFlipDirs_ok (turn : Stone) (x y : Nat) :
    ∀ (ds : List (Int × Int)) (b : Board), isSquare b = true →
      ∃ b2, gameFlipDirs turn x y b ds = (b2, none) ∧
        rowLens b2 = rowLens b := by
  intro ds
  induction ds with
  | nil =>
    intro b _
    exact ⟨b, rfl, rfl⟩
  | cons d rest ih =>
    intro b hsq
    by_cases hir : inRangeI b ((x : Int) + d.1) ((y : Int) + d.2)
    · by_cases hstop : getAtI b
          (scanLoop b turn.opposite d (fuel b)
            ((x : Int) + d.1) ((y : Int) + d.2)).2.1
          (scanLoop b turn.opposite d (fuel b)
            ((x : Int) + d.1) ((y : Int) + d.2)).2.2 = some turn
      · have hall : ∀ p ∈ (scanLoop b turn.opposite d (fuel b)
            ((x : Int) + d.1) ((y : Int) + d.2)).1,
            (getAt b p.x p.y).isSome = true := by
          intro p hp
          obtain ⟨i, hpe, hg⟩ := mem_scanLoop hp
          obtain ⟨_, _, hq⟩ := getAtI_some_elim hg
          rw [hpe]
          simp [hq]
        obtain ⟨b1, hrun, hrl1, _⟩ := flipRun_ok _ b hsq hall
        obtain ⟨b2, hrest, hrl2⟩ :=
          ih b1 (isSquare_of_rowLens hrl1 hsq)
        refine ⟨b2, ?_, by rw [hrl2, hrl1]⟩
        simp only [gameFlipDirs]
        rw [if_neg (by simp [hir]), if_neg (by simp [hstop]), hrun]
        exact hrest
      · obtain ⟨b2, hrest, hrl2⟩ := ih b hsq
        refine ⟨b2, ?_, hrl2⟩
        simp only [gameFlipDirs]
        rw [if_neg (by simp [hir]), if_pos (by simp [hstop])]
        exact hrest
    · obtain ⟨b2, hrest, hrl2⟩ := ih b hsq
      refine ⟨b2, ?_, hrl2⟩
      simp only [gameFlipDirs]
      rw [if_pos (by simp [hir])]
      exact hrest

/-! ### Claim C1: forced pass keeps the stored turn -/

/-- C1: when, after a legal placement and its flips, the opponent has no
legal move but the mover still has one, game-level put_stone reports
NextPlayerCantPutStone and the stored turn is unchanged (the two set_turn
calls cancel out). -/
theorem claim1_forced_pass (g : SimpleReversiGame) (x y : Nat)
    (hsq : isSquare g.board = true)
    (h1 : gameCheckCanPut g x y = true)
    (h2 : getCanPutStones (gameMoveBoard g x y) g.turn.opposite = [])
    (h3 : getCanPutStones (gameMoveBoard g x y) g.turn ≠ []) :
    gamePutStone g x y
      = (.error .NextPlayerCantPutStone,
         { board := gameMoveBoard g x y, turn := g.turn }) := by
  have hcc : checkCanPut g.board x y g.turn = true := h1
  obtain ⟨hr, hg⟩ := checkCanPut_empty hcc
  have hxy : x < size g.board ∧ y < size g.board := by
    simp [inRange] at hr
    omega
  have hplace : placeStone g.board x y g.turn
      = .ok (setCell g.board x y (some g.turn)) := by
    unfold placeStone
    rw [if_neg (by omega), if_neg (by simp [hg])]
  have hsq1 : isSquare (setCell g.board x y (some g.turn)) = true :=
    isSquare_setCell hsq
  obtain ⟨b2, hph, hrl⟩ :=
    gameFlipDirs_ok g.turn x y DIRECTIONS
      (setCell g.board x y (some g.turn)) hsq1
  have hmb : gameMoveBoard g x y = b2 := by
    unfold gameMoveBoard gameFlipPhase
    rw [hph]
  rw [hmb] at h2 h3
  have hsq2 : isSquare b2 = true := isSquare_of_rowLens hrl hsq1
  have hnotfull : isGameOver b2 = false := by
    obtain ⟨p, hp⟩ := List.exists_mem_of_ne_nil _ h3
    exact isGameOver_false_of_canPut hsq2 (mem_getCanPutStones hp)
  unfold gamePutStone
  rw [if_neg (by simp [h1]), hplace]
  show (match gameFlipPhase (setCell g.board x y (some g.turn)) g.turn x y with
        | (b2, some e) =>
          (Except.error e, SimpleReversiGame.mk b2 g.turn)
        | (b2, none) =>
          if isGameOver b2 then
            match winner b2 with
            | .error e => (.error e, SimpleReversiGame.mk b2 g.turn)
            | .ok _ => gamePutStoneRest b2 g.turn
          else gamePutStoneRest b2 g.turn) = _
  unfold gameFlipPhase
  rw [hph]
  show (if isGameOver b2 then _ else gamePutStoneRest b2 g.turn) = _
  rw [if_neg (by simp [hnotfull])]
  unfold gamePutStoneRest
  rw [hmb, if_pos (by rw [h2]; rfl),
    if_neg (fun hc : (getCanPutStones b2 g.turn).isEmpty = true =>
      h3 (List.isEmpty_iff.mp hc))]

theorem claim1_witness :
    (isSquare c1Game.board = true ∧ gameCheckCanPut c1Game 0 1 = true ∧
      getCanPutStones (gameMoveBoard c1Game 0 1) Stone.black.opposite = [] ∧
      getCanPutStones (gameMoveBoard c1Game 0 1) Stone.black ≠ []) ∧
      gamePutStone c1Game 0 1
        = (.error .NextPlayerCantPutStone,
           { board := gameMoveBoard c1Game 0 1, turn := Stone.black }) := by
  refine ⟨⟨by decide, by decide, by decide, by decide⟩, ?_⟩
  exact claim1_forced_pass c1Game 0 1 (by decide) (by decide) (by decide)
    (by decide)

/-! ### Claim C8: the greedy strategy takes the earliest maximal flip count -/

theorem decideLoop_spec (b : Board) (color : Stone) :
    ∀ (l : List Point) (i mc mi : Nat),
      (decideLoop b color l i mc mi = (mc, mi) ∧
        ∀ p ∈ l, flipCountAt b color p ≤ mc) ∨
      (∃ (k : Nat) (q : Point), l[k]? = some q ∧
        (decideLoop b color l i mc mi).1 = flipCountAt b color q ∧
        (decideLoop b color l i mc mi).2 = i + k ∧
        mc < flipCountAt b color q ∧
        (∀ p ∈ l, flipCountAt b color p ≤ flipCountAt b color q) ∧
        (∀ (m : Nat) (r : Point), m < k → l[m]? = some r →
          flipCountAt b color r < flipCountAt b color q)) := by
  intro l
  induction l with
  | nil =>
    intro i mc mi
    left
    exact ⟨rfl, by simp⟩
  | cons p t ih =>
    intro i mc mi
    by_cases hcmp : mc < flipCountAt b color p
    · have hstep : decideLoop b color (p :: t) i mc mi
          = decideLoop b color t (i + 1) (flipCountAt b color p) i := by
        show (if mc < flipCountAt b color p
              then decideLoop b color t (i + 1) (flipCountAt b color p) i
              else decideLoop b color t (i + 1) mc mi) = _
        rw [if_pos hcmp]
      rcases ih (i + 1) (flipCountAt b color p) i with
        ⟨heq, hall⟩ | ⟨k, q, hkq, hv1, hv2, hv3, hv4, hv5⟩
      · right
        refine ⟨0, p, by simp, ?_, ?_, hcmp, ?_, ?_⟩
        · rw [hstep, heq]
        · rw [hstep, heq]
          simp
        · intro r hr
          rcases List.mem_cons.mp hr with rfl | hr2
          · exact Nat.le_refl _
          · exact hall r hr2
        · intro m r hm _
          omega
      · right
        refine ⟨k + 1, q, by simpa using hkq, ?_, ?_, by omega, ?_, ?_⟩
        · rw [hstep]
          exact hv1
        · rw [hstep, hv2]
          omega
        · intro r hr
          rcases List.mem_cons.mp hr with rfl | hr2
          · omega
          · exact hv4 r hr2
        · intro m r hm hmr
          cases m with
          | zero =>
            simp only [List.getElem?_cons_zero] at hmr
            cases hmr
            omega
          | succ n =>
            simp only [List.getElem?_cons_succ] at hmr
            exact hv5 n r (by omega) hmr
    · have hstep : decideLoop b color (p :: t) i mc mi
          = decideLoop b color t (i + 1) mc mi := by
        show (if mc < flipCountAt b color p
              then decideLoop b color t (i + 1) (flipCountAt b color p) i
              else decideLoop b color t (i + 1) mc mi) = _
        rw [if_neg hcmp]
      rcases ih (i + 1) mc mi with
        ⟨heq, hall⟩ | ⟨k, q, hkq, hv1, hv2, hv3, hv4, hv5⟩
      · left
        refine ⟨by rw [hstep]; exact heq, ?_⟩
        intro r hr
        rcases List.mem_cons.mp hr with rfl | hr2
        · omega
        · exact hall r hr2
      · right
        refine ⟨k + 1, q, by simpa using hkq, ?_, ?_, hv3, ?_, ?_⟩
        · rw [hstep]
          exact hv1
        · rw [hstep, hv2]
          omega
        · intro r hr
          rcases List.mem_cons.mp hr with rfl | hr2
          · omega
          · exact hv4 r hr2
        · intro m r hm hmr
          cases m with
          | zero =>
            simp only [List.getElem?_cons_zero] at hmr
            cases hmr
            omega
          | succ n =>
            simp only [List.getElem?_cons_succ] at hmr
            exact hv5 n r (by omega) hmr

/-- C8: SimpleComputer::decide returns the earliest-enumerated legal move
whose flip count is maximal (ties keep the earliest candidate); in
particular, with flip counts 1 and 3 on offer and no count above 3, a
3-flip move is returned. -/
theorem claim8_greedy_argmax (b : Board) (color : Stone)
    (hne : getCanPutStones b color ≠ []) :
    ∃ (k : Nat) (q : Point), (getCanPutStones b color)[k]? = some q ∧
      simpleComputerDecide color b = some q ∧
      (∀ p ∈ getCanPutStones b color,
        flipCountAt b color p ≤ flipCountAt b color q) ∧
      (∀ (m : Nat) (r : Point), m < k →
        (getCanPutStones b color)[m]? = some r →
        flipCountAt b color r < flipCountAt b color q) := by
  rcases decideLoop_spec b color (getCanPutStones b color) 0 0 0 with
    ⟨heq, hall⟩ | ⟨k, q, hkq, _, hv2, _, hv4, hv5⟩
  · obtain ⟨hd, tl, hcs⟩ := List.exists_cons_of_ne_nil hne
    refine ⟨0, hd, by rw [hcs]; simp, ?_, ?_, ?_⟩
    · show (getCanPutStones b color)[(decideLoop b color
          (getCanPutStones b color) 0 0 0).2]? = _
      rw [heq]
      rw [hcs]
      simp
    · intro r hr
      have h0 : flipCountAt b color hd ≤ 0 :=
        hall hd (by rw [hcs]; simp)
      have := hall r hr
      omega
    · intro m r hm _
      omega
  · refine ⟨k, q, hkq, ?_, hv4, hv5⟩
    show (getCanPutStones b color)[(decideLoop b color
        (getCanPutStones b color) 0 0 0).2]? = _
    rw [hv2]
    simpa using hkq

theorem claim8_witness :
    (getCanPutStones c8Board .black ≠ [] ∧
      getCanPutStones c8Board .black = [⟨0, 0⟩, ⟨3, 0⟩] ∧
      flipCountAt c8Board .black ⟨0, 0⟩ = 3 ∧
      flipCountAt c8Board .black ⟨3, 0⟩ = 1 ∧
      simpleComputerDecide .black c8Board = some ⟨0, 0⟩) ∧
      ∃ (k : Nat) (q : Point),
        (getCanPutStones c8Board .black)[k]? = some q ∧
        simpleComputerDecide .black c8Board = some q ∧
        (∀ p ∈ getCanPutStones c8Board .black,
          flipCountAt c8Board .black p ≤ flipCountAt c8Board .black q) ∧
        (∀ (m : Nat) (r : Point), m < k →
          (getCanPutStones c8Board .black)[m]? = some r →
          flipCountAt c8Board .black r < flipCountAt c8Board .black q) :=
  ⟨⟨by decide, by decide, by decide, by decide, by decide⟩,
    claim8_greedy_argmax c8Board .black (by decide)⟩

/-! ### Claims C4, C5, C7, C10 -/

/-- C4 counterexample: on the standard 4×4 opening, cell (1,1) is occupied
(by White), yet put_stone returns InvalidMove — not StoneAlreadyPlaced as the
claim states — because the step-1 legality check rejects the move first. -/
theorem claim4_counterexample :
    (getAt std4Board 1 1).isSome = true ∧
      putStone std4Board 1 1 .black = some (.error .InvalidMove, std4Board) ∧
      ReversiError.InvalidMove ≠ ReversiError.StoneAlreadyPlaced := by
  refine ⟨by decide, ?_, by decide⟩
  decide

/-- C4 (amended): a move landing on an occupied cell always fails with
InvalidMove (the StoneAlreadyPlaced defense-in-depth branch is shadowed by
the preceding check_can_put test) and leaves the board unchanged. -/
theorem claim4_occupied_invalidMove (b : Board) (x y : Nat) (p : Stone)
    (h : (getAt b x y).isSome = true) :
    putStone b x y p = some (.error .InvalidMove, b) :=
  putStone_invalid_of_not_can b x y p (checkCanPut_false_of_occupied b x y p h)

theorem claim4_witness :
    (getAt std4Board 2 2).isSome = true ∧
      putStone std4Board 2 2 .white = some (.error .InvalidMove, std4Board) :=
  ⟨by decide, claim4_occupied_invalidMove std4Board 2 2 .white (by decide)⟩

/-- C5 counterexample: x = 5 is out of range on the 4×4 board, yet put_stone
returns InvalidMove — not IndexOutOfBound as the claim states — because the
step-1 legality check rejects the move first. -/
theorem claim5_counterexample :
    size std4Board ≤ 5 ∧
      putStone std4Board 5 0 .black = some (.error .InvalidMove, std4Board) ∧
      ReversiError.InvalidMove ≠ ReversiError.IndexOutOfBound := by
  refine ⟨by decide, ?_, by decide⟩
  decide

/-- C5 (amended): a move with an out-of-range coordinate always fails with
InvalidMove (the IndexOutOfBound defense-in-depth branch is shadowed by the
preceding check_can_put test) and leaves the board unchanged. -/
theorem claim5_oob_invalidMove (b : Board) (x y : Nat) (p : Stone)
    (h : size b ≤ x ∨ size b ≤ y) :
    putStone b x y p = some (.error .InvalidMove, b) :=
  putStone_invalid_of_not_can b x y p (checkCanPut_false_of_oob b x y p h)

theorem claim5_witness :
    (size std4Board ≤ 9 ∨ size std4Board ≤ 2) ∧
      putStone std4Board 9 2 .white = some (.error .InvalidMove, std4Board) :=
  ⟨Or.inl (by decide), claim5_oob_invalidMove std4Board 9 2 .white (Or.inl (by decide))⟩

/-- C7: the freshly constructed game holds exactly 4 stones, 2 per side, at
the four central cells (half = 4: White at (3,3) and (4,4), Black at (4,3)
and (3,4) — diagonally opposite cells share a color), every other cell is
empty, and Black moves first. -/
theorem claim7_newGame :
    size newGame.board = 8 ∧
      count newGame.board .black = 2 ∧
      count newGame.board .white = 2 ∧
      getAt newGame.board 3 3 = some .white ∧
      getAt newGame.board 4 4 = some .white ∧
      getAt newGame.board 4 3 = some .black ∧
      getAt newGame.board 3 4 = some .black ∧
      (∀ x, x < 8 → ∀ y, y < 8 →
        ¬((x = 3 ∨ x = 4) ∧ (y = 3 ∨ y = 4)) → getAt newGame.board x y = none) ∧
      newGame.turn = .black := by
  decide

/-- C10: count_flippable totalizes its "cell must hold a stone" precondition
with result 0: on any square board, an empty cell — in particular any
out-of-range coordinate — yields 0 rather than an error. -/
theorem claim10_countFlippable_empty (b : Board) (x y : Nat)
    (hsq : isSquare b = true)
    (h : inRange b x y = false ∨ getAt b x y = none) :
    countFlippable b x y = 0 := by
  have hnone : getAt b x y = none := by
    rcases h with h | h
    · exact getAt_none_of_not_inRange b x y hsq h
    · exact h
  unfold countFlippable
  simp [hnone]

theorem claim10_witness :
    (isSquare std4Board = true) ∧
      (inRange std4Board 7 0 = false ∨ getAt std4Board 7 0 = none) ∧
      countFlippable std4Board 7 0 = 0 :=
  ⟨by decide, Or.inl (by decide),
    claim10_countFlippable_empty std4Board 7 0 (by decide) (Or.inl (by decide))⟩

end Reversi
